import Mathlib

/-!
Verification development for the label-hierarchy harmonization subsystem of
the `hammer` repository: layered-DAG construction and validation, derivation
of the three normalized graph operators, the harmonization mixing layer,
DAG serialization, the prediction bucketing, and the feature-settings
attribute machinery.

The `LayeredDAG` and `HarmonizeGraphConvolution` implementations live in
modules (`hammer.dags`, `hammer.layers`) whose source is not part of this
tree; their behaviour is modelled from the specification, as marked on each
definition.  `Hammer.predict_proba` (src/hammer/model.py) and
`FeatureSettings` (src/hammer/training/feature_settings.py) are embedded
from the source.
-/

namespace Hammer

/-- Modelled from the spec: one layer of the taxonomy, a named, ordered list
of (label name, parent label names in the previous layer) pairs
(spec section 4.1, missing module `hammer.dags`). -/
structure LayerSpec where
  name : String
  labels : List (String × List String)
deriving Repr, DecidableEq

/-- Modelled from the spec: an ordered taxonomy, top layer first
(spec section 6, missing module `hammer.dags`). -/
abbrev Taxonomy := List LayerSpec

/-- Modelled from the spec: the validation errors of LayeredDAG construction,
each identifying the offending layer and label or parent name
(spec section 4.1, missing module `hammer.dags`). -/
inductive DAGError where
  | emptyLayer (layerName : String)
  | duplicateLabel (layerName labelName : String)
  | danglingParent (layerName labelName parentName : String)
deriving Repr, DecidableEq

/-- The ordered label names of one layer. -/
def layerLabels (ly : LayerSpec) : List String :=
  ly.labels.map Prod.fst

/-- First label name that occurs twice in the list, if any. -/
def dupFind : List String → Option String
  | [] => none
  | x :: xs => if x ∈ xs then some x else dupFind xs

/-- First (label, parent) pair of the layer whose parent is absent from the
previous layer's labels, if any. -/
def danglingFind (prev : List String) : List (String × List String) → Option (String × String)
  | [] => none
  | (lab, ps) :: rest =>
    match ps.find? (fun p => decide (p ∉ prev)) with
    | some p => some (lab, p)
    | none => danglingFind prev rest

/-- Modelled from the spec: validation of a single layer against the labels
of the immediately preceding layer (spec section 4.1, missing module
`hammer.dags`): a layer must be nonempty, must not repeat a label name, and
every declared parent must lie in the previous layer. -/
def checkLayer (prev : List String) (ly : LayerSpec) : Option DAGError :=
  if ly.labels.isEmpty then some (.emptyLayer ly.name)
  else
    match dupFind (layerLabels ly) with
    | some lab => some (.duplicateLabel ly.name lab)
    | none =>
      match danglingFind prev ly.labels with
      | some lp => some (.danglingParent ly.name lp.1 lp.2)
      | none => none

/-- Validation loop over the layers, carrying the previous layer's labels
(the top layer is validated against the empty label list). -/
def buildAux (prev : List String) : List LayerSpec → Option DAGError
  | [] => none
  | ly :: rest =>
    match checkLayer prev ly with
    | some e => some e
    | none => buildAux (layerLabels ly) rest

/-- Modelled from the spec: the built layered DAG, an immutable value
wrapping the validated taxonomy (spec sections 3 and 4.1, missing module
`hammer.dags`). -/
structure LayeredDAG where
  layers : Taxonomy
deriving Repr, DecidableEq

/-- Modelled from the spec: one-shot LayeredDAG construction; any validation
failure is fatal and no partially-built DAG is exposed (spec sections 4.1
and 7, missing module `hammer.dags`). -/
def LayeredDAG.build (t : Taxonomy) : Except DAGError LayeredDAG :=
  match buildAux [] t with
  | some e => .error e
  | none => .ok ⟨t⟩

/-- Modelled from the spec: `nodes()`, the canonical global-order sequence of
label names, concatenating labels across layers in layer order. -/
def LayeredDAG.nodes (d : LayeredDAG) : List String :=
  (d.layers.map layerLabels).flatten

/-- Modelled from the spec: `number_of_nodes()`, the total label count. -/
def LayeredDAG.numberOfNodes (d : LayeredDAG) : Nat :=
  d.nodes.length

/-- Modelled from the spec: `layer_names()`, ordered layer names. -/
def LayeredDAG.layerNames (d : LayeredDAG) : List String :=
  d.layers.map LayerSpec.name

/-- Modelled from the spec: `nodes_in_layer(layer_name)`, the ordered
sub-sequence of labels belonging to the named layer. -/
def LayeredDAG.nodesInLayer (d : LayeredDAG) (layerName : String) : List String :=
  match d.layers.find? (fun ly => ly.name == layerName) with
  | some ly => layerLabels ly
  | none => []

/-- Every node of the taxonomy tagged with its layer index and its declared
parent list, in canonical global order. -/
def taggedNodes (t : Taxonomy) : List (Nat × String × List String) :=
  (t.enum.map (fun kl => kl.2.labels.map (fun e => (kl.1, e.1, e.2)))).flatten

/-- Total node count of a taxonomy. -/
def nNodes (t : Taxonomy) : Nat :=
  (taggedNodes t).length

/-- Modelled from the spec: the taxonomy edge test underlying the binary
incidence matrix A (spec section 4.1): an edge runs from child `i` to parent
`j` exactly when `j` lies in the layer immediately above `i` and the label of
`j` is among the declared parents of `i`. -/
def edgeB (t : Taxonomy) (i j : Fin (nNodes t)) : Bool :=
  let ci := (taggedNodes t).get i
  let pj := (taggedNodes t).get j
  decide (ci.1 = pj.1 + 1) && pj.2.1 ∈ ci.2.2

/-- Modelled from the spec: the binary incidence matrix `A`, with
`A[child, parent] = 1` exactly on taxonomy edges (spec section 4.1). -/
def adjacency (t : Taxonomy) : Matrix (Fin (nNodes t)) (Fin (nNodes t)) ℚ :=
  fun i j => if edgeB t i j then 1 else 0

/-- Out-degree of node `i` in `A` (its parent count), as a rational. -/
def outDeg (t : Taxonomy) (i : Fin (nNodes t)) : ℚ :=
  ∑ j, adjacency t i j

/-- In-degree of node `i` in `A` (its child count), as a rational. -/
def inDeg (t : Taxonomy) (i : Fin (nNodes t)) : ℚ :=
  ∑ j, adjacency t j i

/-- Number of parents of node `i` (cardinality of its edge targets). -/
def parentCount (t : Taxonomy) (i : Fin (nNodes t)) : Nat :=
  (Finset.univ.filter (fun j => edgeB t i j = true)).card

/-- Number of children of node `i`. -/
def childCount (t : Taxonomy) (i : Fin (nNodes t)) : Nat :=
  (Finset.univ.filter (fun j => edgeB t j i = true)).card

/-- Modelled from the spec: the forward operator `D_out⁻¹ · A` returned by
`laplacian()`; a row whose node has zero parents is all-zero rather than
divided by zero (spec section 4.1, missing module `hammer.dags`). -/
def forwardOperator (t : Taxonomy) : Matrix (Fin (nNodes t)) (Fin (nNodes t)) ℚ :=
  fun i j => if outDeg t i = 0 then 0 else adjacency t i j / outDeg t i

/-- Modelled from the spec: the backward operator `D_in⁻¹ · Aᵗ` returned by
`transposed_laplacian()`; a row whose node has zero children is all-zero
(spec section 4.1, missing module `hammer.dags`). -/
def backwardOperator (t : Taxonomy) : Matrix (Fin (nNodes t)) (Fin (nNodes t)) ℚ :=
  fun i j => if inDeg t i = 0 then 0 else adjacency t j i / inDeg t i

/-- The symmetrized edge matrix `S = A + Aᵗ`, over the rationals. -/
def symAdj (t : Taxonomy) : Matrix (Fin (nNodes t)) (Fin (nNodes t)) ℚ :=
  fun i j => adjacency t i j + adjacency t j i

/-- Row-sum degree of the symmetrized matrix `S`. -/
def symDeg (t : Taxonomy) (i : Fin (nNodes t)) : ℚ :=
  ∑ j, symAdj t i j

/-- Inverse square root with the zero-degree convention: `d^(-1/2)` is taken
to be `0` when `d = 0` (spec section 4.1). -/
noncomputable def invSqrtZ (d : ℝ) : ℝ :=
  if d = 0 then 0 else 1 / Real.sqrt d

/-- Modelled from the spec: the symmetric operator returned by
`symmetric_laplacian()`, the normalized graph Laplacian
`I − D_sym^(−1/2) · S · D_sym^(−1/2)` with the zero-degree convention
(spec section 4.1, missing module `hammer.dags`). -/
noncomputable def symmetricLaplacian (t : Taxonomy) :
    Matrix (Fin (nNodes t)) (Fin (nNodes t)) ℝ :=
  fun i j =>
    (if i = j then 1 else 0) -
      invSqrtZ (symDeg t i) * ((symAdj t i j : ℚ) : ℝ) * invSqrtZ (symDeg t j)

/-- Operator accessor on the built DAG: `laplacian()`. -/
def LayeredDAG.laplacian (d : LayeredDAG) :
    Matrix (Fin (nNodes d.layers)) (Fin (nNodes d.layers)) ℚ :=
  forwardOperator d.layers

/-- Operator accessor on the built DAG: `transposed_laplacian()`. -/
def LayeredDAG.transposedLaplacian (d : LayeredDAG) :
    Matrix (Fin (nNodes d.layers)) (Fin (nNodes d.layers)) ℚ :=
  backwardOperator d.layers

/-- Operator accessor on the built DAG: `symmetric_laplacian()`. -/
noncomputable def LayeredDAG.symmetricLaplacianM (d : LayeredDAG) :
    Matrix (Fin (nNodes d.layers)) (Fin (nNodes d.layers)) ℝ :=
  symmetricLaplacian d.layers

/-- The example taxonomy of spec section 8: top = [A, B] with no parents,
mid = [C (parent A), D (parents A, B)], bottom = [E (parent C), F (parent D)]. -/
def egTax : Taxonomy :=
  [⟨"top", [("A", []), ("B", [])]⟩,
   ⟨"mid", [("C", ["A"]), ("D", ["A", "B"])]⟩,
   ⟨"bottom", [("E", ["C"]), ("F", ["D"])]⟩]

/-- The built example DAG. -/
def egDag : LayeredDAG := ⟨egTax⟩

/-- A valid taxonomy on which labels repeat across layers and two layers
share a name: layer "L" holds label A, and a second layer also named "L"
holds labels A (with parent A) and B (with no parents, which the edge-case
policy of spec section 4.1 permits outside the top layer). -/
def dupTax : Taxonomy :=
  [⟨"L", [("A", [])]⟩, ⟨"L", [("A", ["A"]), ("B", [])]⟩]

/-- The built DAG of the duplicated taxonomy. -/
def dupDag : LayeredDAG := ⟨dupTax⟩

/-- The failing taxonomy of spec section 8: layer "mid" declares a parent
"Z" absent from layer "top". -/
def badParentTax : Taxonomy :=
  [⟨"top", [("A", []), ("B", [])]⟩, ⟨"mid", [("C", ["Z"])]⟩]

/-- One layer being invalid (spec section 4.1): it is empty, repeats a
label name, or declares a parent absent from the previous layer's labels. -/
def layerBad (prev : List String) (ly : LayerSpec) : Prop :=
  ly.labels = [] ∨ ¬ (layerLabels ly).Nodup ∨
    ∃ e ∈ ly.labels, ∃ p ∈ e.2, p ∉ prev

/-- A taxonomy exhibiting one of the three validation failures of spec
section 4.1, with each layer judged against the labels of the immediately
preceding layer (the top layer against the empty list). -/
def specFailure (t : Taxonomy) : Prop :=
  ∃ pr ∈ (([] :: t.map layerLabels).zip t), layerBad pr.1 pr.2

/-- The partition property of spec section 8: no label appears in two
layers, every label of `nodes()` appears in exactly one layer, and
concatenating the per-layer sequences in layer order reproduces `nodes()`. -/
def nodesPartition (d : LayeredDAG) : Prop :=
  (∀ lab : String, d.layers.countP (fun ly => decide (lab ∈ layerLabels ly)) ≤ 1) ∧
  (∀ lab ∈ d.nodes, d.layers.countP (fun ly => decide (lab ∈ layerLabels ly)) = 1) ∧
  (d.layerNames.map d.nodesInLayer).flatten = d.nodes

/-! ### The harmonization layer (`HarmonizeGraphConvolution`) -/

/-- Modelled from the spec: a shape-contract violation of the harmonization
layer (spec sections 4.2 and 7, missing module `hammer.layers`): either the
raw score vector length differs from the node count, or a supplied support
is not square of the node count. -/
inductive ShapeError where
  | badInput (expected got : Nat)
  | badSupport (expected rows : Nat)
deriving Repr, DecidableEq

/-- Dot product of two lists (missing entries contribute nothing). -/
def dotL {α : Type} [Mul α] [AddCommMonoid α] (v w : List α) : α :=
  (List.zipWith (· * ·) v w).sum

/-- Matrix-vector product in list form: one dot product per row. -/
def matVecL {α : Type} [Mul α] [AddCommMonoid α] (m : List (List α)) (v : List α) : List α :=
  m.map (fun row => dotL row v)

/-- Whether a list-of-lists matrix is square of size `n × n`. -/
def squareOfB {α : Type} (n : Nat) (m : List (List α)) : Bool :=
  m.length == n && m.all (fun row => row.length == n)

/-- Modelled from the spec: the harmonization layer state (spec section
4.2, missing module `hammer.layers`): the node count, the cached support
operators (read-only), the learned per-operator projection weight matrices,
the per-operator scalar gates together with the flag selecting whether they
are trainable or fixed at 1, and the output activation. -/
structure HarmonizeGraphConvolution (α : Type) where
  nodes : Nat
  supports : List (List (List α))
  weights : List (List (List α))
  gates : List α
  learnSupport : Bool
  activation : α → α

/-- Effective gate of operator `k`: the learned scalar when gates are
trainable, and the constant 1 when they are disabled (spec section 4.2). -/
def gateVal {α : Type} [One α] (layer : HarmonizeGraphConvolution α) (k : Nat) : α :=
  if layer.learnSupport then layer.gates.getD k 1 else 1

/-- Modelled from the spec: the forward computation of the harmonization
layer (spec section 4.2, missing module `hammer.layers`).  After the shape
contract is checked, each output entry is
`activation (raw_i + Σ_k gate_k · (W_k · (S_k · raw))_i)`; the mixing step
performs no division (it is defined over any commutative ring). -/
def hgcForward {α : Type} [CommRing α] (layer : HarmonizeGraphConvolution α)
    (raw : List α) : Except ShapeError (List α) :=
  if raw.length ≠ layer.nodes then
    .error (.badInput layer.nodes raw.length)
  else
    match layer.supports.find? (fun s => !squareOfB layer.nodes s) with
    | some s => .error (.badSupport layer.nodes s.length)
    | none =>
      .ok ((List.range layer.nodes).map (fun i =>
        layer.activation (raw.getD i 0 +
          ((List.range layer.supports.length).map (fun k =>
            gateVal layer k *
              ((matVecL (layer.weights.getD k []) (matVecL (layer.supports.getD k []) raw)).getD
                i 0))).sum)))

/-- A square matrix rendered as a list of row lists. -/
def matrixToLists {n : Nat} {α : Type} (M : Matrix (Fin n) (Fin n) α) : List (List α) :=
  (List.finRange n).map (fun i => (List.finRange n).map (fun j => M i j))

/-- The harmonization layer exactly as `Hammer.fit` constructs it
(src/hammer/model.py lines 420-428): supports are the DAG's symmetric,
forward and backward operators, the activation is linear (the identity) and
`learn_support` is `True`; the learned weights and gates are arbitrary. -/
noncomputable def hammerHarmonizeLayer (d : LayeredDAG)
    (weights : List (List (List ℝ))) (gates : List ℝ) : HarmonizeGraphConvolution ℝ :=
  { nodes := nNodes d.layers
    supports := [matrixToLists d.symmetricLaplacianM,
                 matrixToLists (d.laplacian.map (fun q => (q : ℝ))),
                 matrixToLists (d.transposedLaplacian.map (fun q => (q : ℝ)))]
    weights := weights
    gates := gates
    learnSupport := true
    activation := id }

/-! ### Division-checked operator derivation

Divisions and inverse square roots evaluated under an error-propagating
semantics, to express that the guarded derivation of spec section 4.1 never
performs an undefined operation (the analogue of a float NaN or Inf). -/

/-- Division that reports an undefined result instead of dividing by zero. -/
def qdivChecked (a b : ℚ) : Option ℚ :=
  if b = 0 then none else some (a / b)

/-- The forward operator with its division checked: a zero-parent row is
produced as zeros without dividing. -/
def forwardOperatorChecked (t : Taxonomy) (i j : Fin (nNodes t)) : Option ℚ :=
  if outDeg t i = 0 then some 0 else qdivChecked (adjacency t i j) (outDeg t i)

/-- The backward operator with its division checked. -/
def backwardOperatorChecked (t : Taxonomy) (i j : Fin (nNodes t)) : Option ℚ :=
  if inDeg t i = 0 then some 0 else qdivChecked (adjacency t j i) (inDeg t i)

/-- Inverse square root with the zero-degree convention and with the
undefined cases (negative radicand, division by a zero root) reported. -/
noncomputable def invSqrtChecked (d : ℝ) : Option ℝ :=
  if d = 0 then some 0
  else if d < 0 ∨ Real.sqrt d = 0 then none
  else some (1 / Real.sqrt d)

/-- The symmetric operator with its inverse square roots checked. -/
noncomputable def symmetricLaplacianChecked (t : Taxonomy) (i j : Fin (nNodes t)) :
    Option ℝ :=
  match invSqrtChecked ((symDeg t i : ℚ) : ℝ), invSqrtChecked ((symDeg t j : ℚ) : ℝ) with
  | some a, some b =>
      some ((if i = j then 1 else 0) - a * ((symAdj t i j : ℚ) : ℝ) * b)
  | _, _ => none

/-! ### Serialization of the built DAG

`Hammer.save` (src/hammer/model.py lines 506-518) pickles the DAG to
`dag.pkl` and `Hammer.load_from_path` (lines 148-157) unpickles it without
rebuilding.  The pickle format itself is external; it is modelled as a flat
token stream written and read verbatim. -/

/-- A serialization token: a count or a string. -/
inductive Tok where
  | nat (n : Nat)
  | str (s : String)
deriving Repr, DecidableEq

/-- Encode a list of strings: its length followed by its members. -/
def encodeStrs (l : List String) : List Tok :=
  .nat l.length :: l.map .str

/-- Encode one (label, parents) entry. -/
def encodeLabel (e : String × List String) : List Tok :=
  .str e.1 :: encodeStrs e.2

/-- Encode the labelled entries of one layer. -/
def encodeLabels (l : List (String × List String)) : List Tok :=
  .nat l.length :: (l.map encodeLabel).flatten

/-- Encode one layer: its name followed by its entries. -/
def encodeLayer (ly : LayerSpec) : List Tok :=
  .str ly.name :: encodeLabels ly.labels

/-- Modelled from the spec: serialization of the built DAG as an opaque
artifact written verbatim (spec section 6; the pickling used by
`Hammer.save` is external code). -/
def pickleDAG (d : LayeredDAG) : List Tok :=
  .nat d.layers.length :: (d.layers.map encodeLayer).flatten

/-- Decode `n` strings from the stream. -/
def decodeStrList : Nat → List Tok → Option (List String × List Tok)
  | 0, ts => some ([], ts)
  | n + 1, .str s :: ts =>
    match decodeStrList n ts with
    | some (l, rest) => some (s :: l, rest)
    | none => none
  | _ + 1, _ => none

/-- Decode a length-prefixed list of strings. -/
def decodeStrs : List Tok → Option (List String × List Tok)
  | .nat n :: ts => decodeStrList n ts
  | _ => none

/-- Decode one (label, parents) entry. -/
def decodeLabel : List Tok → Option ((String × List String) × List Tok)
  | .str lab :: ts =>
    match decodeStrs ts with
    | some (ps, rest) => some ((lab, ps), rest)
    | none => none
  | _ => none

/-- Decode `n` labelled entries. -/
def decodeLabelList : Nat → List Tok → Option (List (String × List String) × List Tok)
  | 0, ts => some ([], ts)
  | n + 1, ts =>
    match decodeLabel ts with
    | some (e, rest) =>
      match decodeLabelList n rest with
      | some (l, rest2) => some (e :: l, rest2)
      | none => none
    | none => none

/-- Decode one layer. -/
def decodeLayer : List Tok → Option (LayerSpec × List Tok)
  | .str nm :: .nat n :: ts =>
    match decodeLabelList n ts with
    | some (labs, rest) => some (⟨nm, labs⟩, rest)
    | none => none
  | _ => none

/-- Decode `n` layers. -/
def decodeLayerList : Nat → List Tok → Option (List LayerSpec × List Tok)
  | 0, ts => some ([], ts)
  | n + 1, ts =>
    match decodeLayer ts with
    | some (ly, rest) =>
      match decodeLayerList n rest with
      | some (l, rest2) => some (ly :: l, rest2)
      | none => none
    | none => none

/-- Modelled from the spec: deserialization of the DAG artifact, reading it
back verbatim; no validation or rebuild is performed on load (spec
section 6; the unpickling used by `Hammer.load_from_path` is external
code). -/
def unpickleDAG (ts : List Tok) : Option LayeredDAG :=
  match ts with
  | .nat n :: rest =>
    match decodeLayerList n rest with
    | some (ls, []) => some ⟨ls⟩
    | _ => none
  | _ => none

/-! ### Feature settings (src/hammer/training/feature_settings.py) -/

/-- Modelled from the spec: the pythonic names of the classes of the
`FEATURES` registry (src/hammer/training/feature_settings.py lines 28-48),
in registry order.  The registry's class files are mostly absent from the
tree; the four present ones give their names verbatim ("autocorrelation",
"extended_connectivity", "pattern", "maccs") and the absent ones follow the
same evident snake-case convention, matching the enumerable named
extractors of spec section 4.3. -/
def registryNames : List String :=
  ["autocorrelation", "atom_pair", "extended_connectivity", "functional_groups",
   "ghose_crippen", "laggner", "layered", "lingo", "minhashed_atom_pair",
   "minhashed", "molecular_quantum_numbers", "pattern", "pubchem",
   "smiles_extended_connectivity", "van_der_waals_surface_area", "avalon",
   "maccs", "topological_torsion", "rdkit"]

/-- The feature-settings state: the ordered inclusion dictionary, keyed by
pythonic feature name (src/hammer/training/feature_settings.py line 56). -/
structure FeatureSettings where
  featuresIncluded : List (String × Bool)
deriving Repr, DecidableEq

/-- `FeatureSettings.__init__`: every registered feature starts excluded. -/
def FeatureSettings.init : FeatureSettings :=
  ⟨registryNames.map (fun n => (n, false))⟩

/-- `FeatureSettings._include_feature`: set one feature's flag to true. -/
def includeFeature (fs : FeatureSettings) (f : String) : FeatureSettings :=
  ⟨fs.featuresIncluded.map (fun p => if p.1 = f then (p.1, true) else p)⟩

/-- The suffix of an attribute name that starts with `include_`, if any
(src/hammer/training/feature_settings.py lines 63-65). -/
def includeAttrSuffix (name : String) : Option String :=
  if name.toList.take 8 = "include_".toList then some (String.mk (name.toList.drop 8))
  else none

/-- The AttributeError message raised by `FeatureSettings.__getattr__`
(src/hammer/training/feature_settings.py lines 68-70). -/
def attrErrMsg (name : String) : String :=
  "FeatureSettings object has no attribute " ++ name

/-- `FeatureSettings.__getattr__` followed by the call of the returned
closure (src/hammer/training/feature_settings.py lines 62-70): an
`include_<f>` attribute toggles feature `f` on when `f` is a key of the
inclusion dictionary, and any other lookup raises AttributeError. -/
def fsGetattr (fs : FeatureSettings) (name : String) : Except String FeatureSettings :=
  match includeAttrSuffix name with
  | some f =>
    if f ∈ fs.featuresIncluded.map Prod.fst then .ok (includeFeature fs f)
    else .error (attrErrMsg name)
  | none => .error (attrErrMsg name)

/-- `FeatureSettings.standard` (src/hammer/training/feature_settings.py
lines 97-105): chains `include_layered`, `include_molecular_descriptors`
and `include_maccs` on a fresh settings object, propagating any
AttributeError. -/
def FeatureSettings.standard : Except String FeatureSettings := do
  let a ← fsGetattr FeatureSettings.init "include_layered"
  let b ← fsGetattr a "include_molecular_descriptors"
  fsGetattr b "include_maccs"

/-! ### Prediction bucketing (src/hammer/model.py lines 600-658) -/

/-- A matchms spectrum, modelled by its metadata key-value mapping. -/
structure Spectrum where
  metadata : List (String × String)
deriving Repr, DecidableEq

/-- The four input shapes accepted by `Hammer.predict_proba`
(src/hammer/model.py line 636): a single SMILES string, a single spectrum,
or a homogeneous list of either. -/
inductive PredictInput where
  | singleSmiles (s : String)
  | singleSpectrum (sp : Spectrum)
  | smilesList (l : List String)
  | spectrumList (l : List Spectrum)
deriving Repr, DecidableEq

/-- Lookup of a metadata key, mirroring `Spectrum.get`. -/
def metaLookup (m : List (String × String)) (k : String) : Option String :=
  (m.find? (fun p => p.1 == k)).map Prod.snd

/-- `Hammer._samples_to_indices` on a spectrum batch (src/hammer/model.py
lines 604-630): the first of `feature_id`, `smiles`, `inchikey` present in
the first spectrum's metadata indexes the rows; if no such key exists, or
some spectrum lacks it, positional indices are used instead. -/
def spectraIndices (l : List Spectrum) : List (String ⊕ Nat) :=
  match l with
  | [] => []
  | s0 :: _ =>
    match ["feature_id", "smiles", "inchikey"].find?
        (fun k => (metaLookup s0.metadata k).isSome) with
    | none => (List.range l.length).map Sum.inr
    | some needle =>
      if l.all (fun s => (metaLookup s.metadata needle).isSome) then
        l.map (fun s => Sum.inl ((metaLookup s.metadata needle).getD ""))
      else (List.range l.length).map Sum.inr

/-- A pandas DataFrame as `predict_proba` builds it: named columns, a row
index, and the row data. -/
structure Frame where
  columns : List String
  rowIndex : List (String ⊕ Nat)
  rows : List (List ℚ)
deriving Repr, DecidableEq

/-- Column selection `frame[wanted]`: each wanted column name picks the
entry at its position in the frame's column list. -/
def selectColumns (cols wanted : List String) (row : List ℚ) : List ℚ :=
  wanted.map (fun w => row.getD (cols.indexOf w) 0)

/-- `Hammer.predict_proba` (src/hammer/model.py lines 634-658): a singleton
input is wrapped into a one-element list before anything else; the feature
computation and network prediction are the abstract parameter `net`; the
prediction table is indexed by `_samples_to_indices` and has one column per
DAG node, and the result buckets its columns per taxonomy layer via
`nodes_in_layer` over `layer_names`. -/
def predictProba (d : LayeredDAG) (net : List String ⊕ List Spectrum → List (List ℚ))
    (input : PredictInput) : List (String × Frame) :=
  let batch : List String ⊕ List Spectrum :=
    match input with
    | .singleSmiles s => Sum.inl [s]
    | .singleSpectrum sp => Sum.inr [sp]
    | .smilesList l => Sum.inl l
    | .spectrumList l => Sum.inr l
  let preds := net batch
  let idx : List (String ⊕ Nat) :=
    match batch with
    | Sum.inl l => l.map Sum.inl
    | Sum.inr l => spectraIndices l
  d.layerNames.map (fun ln =>
    (ln, ⟨d.nodesInLayer ln, idx, preds.map (selectColumns d.nodes (d.nodesInLayer ln))⟩))

/-- A concrete harmonization layer instance used to witness the
harmonization theorems: two nodes, one identity support, zero learned
weights, gates disabled, identity activation. -/
def egLayer : HarmonizeGraphConvolution ℚ :=
  { nodes := 2
    supports := [[[1, 0], [0, 1]]]
    weights := [[[0, 0], [0, 0]]]
    gates := [1]
    learnSupport := false
    activation := id }

/-! ## Theorems -/

/-! ### Serialization round trip -/

theorem decodeStrList_encode (l : List String) (rest : List Tok) :
    decodeStrList l.length (l.map Tok.str ++ rest) = some (l, rest) := by
  induction l with
  | nil => simp [decodeStrList]
  | cons x xs ih => simp [decodeStrList, ih]

theorem decodeStrs_encode (l : List String) (rest : List Tok) :
    decodeStrs (encodeStrs l ++ rest) = some (l, rest) := by
  simp [encodeStrs, decodeStrs, decodeStrList_encode]

theorem decodeLabel_encode (e : String × List String) (rest : List Tok) :
    decodeLabel (encodeLabel e ++ rest) = some (e, rest) := by
  obtain ⟨lab, ps⟩ := e
  simp [encodeLabel, decodeLabel, decodeStrs_encode]

theorem decodeLabelList_encode (l : List (String × List String)) (rest : List Tok) :
    decodeLabelList l.length ((l.map encodeLabel).flatten ++ rest) = some (l, rest) := by
  induction l generalizing rest with
  | nil => simp [decodeLabelList]
  | cons e es ih =>
    simp [decodeLabelList, List.append_assoc, decodeLabel_encode, ih]

theorem decodeLayer_encode (ly : LayerSpec) (rest : List Tok) :
    decodeLayer (encodeLayer ly ++ rest) = some (ly, rest) := by
  obtain ⟨nm, labs⟩ := ly
  simp [encodeLayer, encodeLabels, decodeLayer, decodeLabelList_encode]

theorem decodeLayerList_encode (l : List LayerSpec) (rest : List Tok) :
    decodeLayerList l.length ((l.map encodeLayer).flatten ++ rest) = some (l, rest) := by
  induction l generalizing rest with
  | nil => simp [decodeLayerList]
  | cons ly rest2 ih =>
    simp [decodeLayerList, List.append_assoc, decodeLayer_encode, ih]

/-- C7: serializing a built LayeredDAG and reloading it reproduces the very
same DAG value — hence identical `nodes()` ordering and bit-identical
forward, backward and symmetric operator matrices.  The statement holds for
every `LayeredDAG` value, validated or not, because the load path performs
no rebuild or validation. -/
theorem dag_pickle_roundtrip (d : LayeredDAG) :
    unpickleDAG (pickleDAG d) = some d ∧
    (unpickleDAG (pickleDAG d)).map LayeredDAG.nodes = some d.nodes ∧
    (unpickleDAG (pickleDAG d)).map (fun d2 => matrixToLists d2.laplacian) =
      some (matrixToLists d.laplacian) ∧
    (unpickleDAG (pickleDAG d)).map (fun d2 => matrixToLists d2.transposedLaplacian) =
      some (matrixToLists d.transposedLaplacian) ∧
    (unpickleDAG (pickleDAG d)).map (fun d2 => matrixToLists d2.symmetricLaplacianM) =
      some (matrixToLists d.symmetricLaplacianM) := by
  have hrt : unpickleDAG (pickleDAG d) = some d := by
    obtain ⟨layers⟩ := d
    have h := decodeLayerList_encode layers []
    rw [List.append_nil] at h
    simp [pickleDAG, unpickleDAG, h]
  refine ⟨hrt, ?_, ?_, ?_, ?_⟩ <;> rw [hrt] <;> rfl

/-! ### Prediction bucketing -/

/-- C9: `Hammer.predict_proba` applied to a single SMILES string or a
single spectrum returns exactly the per-layer tables of the one-element
list input: the singleton is wrapped into a list before any feature
computation, prediction, indexing or bucketing. -/
theorem predictProba_singleton (d : LayeredDAG)
    (net : List String ⊕ List Spectrum → List (List ℚ)) :
    (∀ s : String,
       predictProba d net (.singleSmiles s) = predictProba d net (.smilesList [s])) ∧
    (∀ sp : Spectrum,
       predictProba d net (.singleSpectrum sp) = predictProba d net (.spectrumList [sp])) :=
  ⟨fun _ => rfl, fun _ => rfl⟩

/-! ### Row sums of the forward and backward operators -/

instance {ε α : Type} [DecidableEq ε] [DecidableEq α] : DecidableEq (Except ε α) :=
  fun x y =>
    match x, y with
    | .error a, .error b => decidable_of_iff (a = b) (by simp)
    | .error _, .ok _ => .isFalse (by simp)
    | .ok _, .error _ => .isFalse (by simp)
    | .ok a, .ok b => decidable_of_iff (a = b) (by simp)

theorem outDeg_eq_parentCount (t : Taxonomy) (i : Fin (nNodes t)) :
    outDeg t i = (parentCount t i : ℚ) := by
  unfold outDeg parentCount adjacency
  rw [Finset.sum_boole]

theorem inDeg_eq_childCount (t : Taxonomy) (i : Fin (nNodes t)) :
    inDeg t i = (childCount t i : ℚ) := by
  unfold inDeg childCount adjacency
  rw [Finset.sum_boole]

/-- C1: for every valid taxonomy, a row of the forward operator
(`laplacian()`) sums to 1 when the node has at least one parent and is
all-zero when it has none, and a row of the backward operator
(`transposed_laplacian()`) sums to 1 when the node has at least one child
and is all-zero otherwise; the zero rows are produced as zeros, never by a
division by zero. -/
theorem operator_row_sums (d : LayeredDAG) (h : LayeredDAG.build d.layers = .ok d)
    (i : Fin (nNodes d.layers)) :
    (0 < parentCount d.layers i → ∑ j, d.laplacian i j = 1) ∧
    (parentCount d.layers i = 0 → ∀ j, d.laplacian i j = 0) ∧
    (0 < childCount d.layers i → ∑ j, d.transposedLaplacian i j = 1) ∧
    (childCount d.layers i = 0 → ∀ j, d.transposedLaplacian i j = 0) := by
  clear h
  refine ⟨?_, ?_, ?_, ?_⟩
  · intro hpos
    have hd : outDeg d.layers i ≠ 0 := by
      rw [outDeg_eq_parentCount]
      exact_mod_cast hpos.ne'
    show (∑ j, forwardOperator d.layers i j) = 1
    simp only [forwardOperator, if_neg hd]
    rw [← Finset.sum_div]
    have hnum : (∑ j, adjacency d.layers i j) = outDeg d.layers i := rfl
    rw [hnum, div_self hd]
  · intro hzero
    have hd : outDeg d.layers i = 0 := by
      rw [outDeg_eq_parentCount, hzero]; norm_cast
    intro j
    simp [LayeredDAG.laplacian, forwardOperator, hd]
  · intro hpos
    have hd : inDeg d.layers i ≠ 0 := by
      rw [inDeg_eq_childCount]
      exact_mod_cast hpos.ne'
    show (∑ j, backwardOperator d.layers i j) = 1
    simp only [backwardOperator, if_neg hd]
    rw [← Finset.sum_div]
    have hnum : (∑ j, adjacency d.layers j i) = inDeg d.layers i := rfl
    rw [hnum, div_self hd]
  · intro hzero
    have hd : inDeg d.layers i = 0 := by
      rw [inDeg_eq_childCount, hzero]; norm_cast
    intro j
    simp [LayeredDAG.transposedLaplacian, backwardOperator, hd]

/-- Witness for C1 at the spec section 8 example taxonomy, at the node C
(global index 2), which has exactly one parent and one child. -/
theorem operator_row_sums_witness :
    LayeredDAG.build egDag.layers = .ok egDag ∧
    ((0 < parentCount egDag.layers ⟨2, by decide⟩ →
        ∑ j, egDag.laplacian ⟨2, by decide⟩ j = 1) ∧
     (parentCount egDag.layers ⟨2, by decide⟩ = 0 →
        ∀ j, egDag.laplacian ⟨2, by decide⟩ j = 0) ∧
     (0 < childCount egDag.layers ⟨2, by decide⟩ →
        ∑ j, egDag.transposedLaplacian ⟨2, by decide⟩ j = 1) ∧
     (childCount egDag.layers ⟨2, by decide⟩ = 0 →
        ∀ j, egDag.transposedLaplacian ⟨2, by decide⟩ j = 0)) :=
  ⟨by decide, operator_row_sums egDag (by decide) ⟨2, by decide⟩⟩

/-! ### The layer partition of `nodes()` -/

theorem nodesInLayer_cons_ne (ly : LayerSpec) (rest : Taxonomy) (nm : String)
    (hne : ¬ ly.name = nm) :
    LayeredDAG.nodesInLayer ⟨ly :: rest⟩ nm = LayeredDAG.nodesInLayer ⟨rest⟩ nm := by
  simp [LayeredDAG.nodesInLayer, List.find?_cons, hne]

theorem nodesInLayer_cons_self (ly : LayerSpec) (rest : Taxonomy) :
    LayeredDAG.nodesInLayer ⟨ly :: rest⟩ ly.name = layerLabels ly := by
  simp [LayeredDAG.nodesInLayer, List.find?_cons]

theorem map_nodesInLayer (layers : Taxonomy)
    (hn : (layers.map LayerSpec.name).Nodup) :
    (layers.map LayerSpec.name).map (LayeredDAG.nodesInLayer ⟨layers⟩) =
      layers.map layerLabels := by
  induction layers with
  | nil => rfl
  | cons ly rest ih =>
    rw [List.map_cons, List.nodup_cons] at hn
    rw [List.map_cons, List.map_cons, List.map_cons, nodesInLayer_cons_self]
    have htail : (rest.map LayerSpec.name).map (LayeredDAG.nodesInLayer ⟨ly :: rest⟩) =
        (rest.map LayerSpec.name).map (LayeredDAG.nodesInLayer ⟨rest⟩) := by
      refine List.map_congr_left (fun nm hnm => ?_)
      refine nodesInLayer_cons_ne ly rest nm (fun he => hn.1 ?_)
      rw [he]; exact hnm
    rw [htail, ih hn.2]

theorem mem_nodes_iff (layers : Taxonomy) (lab : String) :
    lab ∈ (layers.map layerLabels).flatten ↔ ∃ ly ∈ layers, lab ∈ layerLabels ly := by
  simp [List.mem_flatten]

theorem countP_layers_eq_one (layers : Taxonomy) (lab : String)
    (hl : ((layers.map layerLabels).flatten).Nodup)
    (hmem : lab ∈ (layers.map layerLabels).flatten) :
    layers.countP (fun ly => decide (lab ∈ layerLabels ly)) = 1 := by
  induction layers with
  | nil => simp at hmem
  | cons ly rest ih =>
    rw [List.map_cons, List.flatten_cons] at hl hmem
    rw [List.nodup_append] at hl
    rw [List.countP_cons]
    by_cases hin : lab ∈ layerLabels ly
    · have hzero : rest.countP (fun ly2 => decide (lab ∈ layerLabels ly2)) = 0 := by
        refine List.countP_eq_zero.2 (fun ly2 hly2 => ?_)
        simp only [decide_eq_true_eq]
        intro hlab2
        exact hl.2.2 hin ((mem_nodes_iff rest lab).2 ⟨ly2, hly2, hlab2⟩)
      simp [hin, hzero]
    · have hmem2 : lab ∈ (rest.map layerLabels).flatten := by
        rcases List.mem_append.1 hmem with h1 | h2
        · exact absurd h1 hin
        · exact h2
      simp [hin, ih hl.2.1 hmem2]

/-- C4 as stated is refuted: the construction of spec section 4.1 accepts
`dupTax`, in which the label A belongs to two layers (both named "L"), so
the per-layer sequences neither avoid overlaps nor reproduce `nodes()` when
concatenated over `layer_names()`. -/
theorem nodes_partition_counterexample :
    LayeredDAG.build dupTax = .ok dupDag ∧ ¬ nodesPartition dupDag := by
  refine ⟨by decide, fun hp => ?_⟩
  exact absurd (hp.2.1 "A" (by decide)) (by decide)

/-- C4 amended: for every valid LayeredDAG whose layer names are pairwise
distinct and whose labels are globally pairwise distinct (which
construction does not itself enforce), the sequences `nodes_in_layer(name)`
over `layer_names()` exactly partition `nodes()`: no label appears in two
layers, every label of `nodes()` appears in exactly one layer, and
concatenating the per-layer sequences in layer order reproduces `nodes()`
with relative order preserved. -/
theorem nodes_partition (d : LayeredDAG) (h : LayeredDAG.build d.layers = .ok d)
    (hn : d.layerNames.Nodup) (hl : d.nodes.Nodup) : nodesPartition d := by
  clear h
  obtain ⟨layers⟩ := d
  have hone : ∀ lab ∈ (LayeredDAG.mk layers).nodes,
      layers.countP (fun ly => decide (lab ∈ layerLabels ly)) = 1 :=
    fun lab hmem => countP_layers_eq_one layers lab hl hmem
  refine ⟨?_, hone, ?_⟩
  · intro lab
    by_cases hmem : lab ∈ (LayeredDAG.mk layers).nodes
    · exact (hone lab hmem).le
    · have hzero : layers.countP (fun ly => decide (lab ∈ layerLabels ly)) = 0 := by
        refine List.countP_eq_zero.2 (fun ly hly => ?_)
        simp only [decide_eq_true_eq]
        intro hlab
        exact hmem ((mem_nodes_iff layers lab).2 ⟨ly, hly, hlab⟩)
      rw [hzero]; exact Nat.zero_le 1
  · show ((LayeredDAG.mk layers).layerNames.map
        (LayeredDAG.nodesInLayer ⟨layers⟩)).flatten = (LayeredDAG.mk layers).nodes
    rw [show (LayeredDAG.mk layers).layerNames = layers.map LayerSpec.name from rfl,
      map_nodesInLayer layers hn]
    rfl

/-- Witness for the amended C4 at the spec section 8 example taxonomy. -/
theorem nodes_partition_witness :
    LayeredDAG.build egDag.layers = .ok egDag ∧ egDag.layerNames.Nodup ∧
    egDag.nodes.Nodup ∧ nodesPartition egDag :=
  ⟨by decide, by decide, by decide,
    nodes_partition egDag (by decide) (by decide) (by decide)⟩

/-! ### Construction-time validation -/

theorem dupFind_eq_none (l : List String) : dupFind l = none ↔ l.Nodup := by
  induction l with
  | nil => simp [dupFind]
  | cons x xs ih =>
    by_cases hx : x ∈ xs <;> simp [dupFind, hx, ih]

theorem danglingFind_eq_none (prev : List String) (labels : List (String × List String)) :
    danglingFind prev labels = none ↔ ∀ e ∈ labels, ∀ p ∈ e.2, p ∈ prev := by
  induction labels with
  | nil => simp [danglingFind]
  | cons e rest ih =>
    obtain ⟨lab, ps⟩ := e
    rw [danglingFind]
    cases hf : ps.find? (fun p => decide (p ∉ prev)) with
    | some p =>
      have hp := List.find?_some hf
      have hpm := List.mem_of_find?_eq_some hf
      simp only [decide_eq_true_eq] at hp
      simp only [reduceCtorEq, false_iff]
      exact fun hall => hp (hall (lab, ps) (List.mem_cons_self _ _) p hpm)
    | none =>
      have hall := List.find?_eq_none.1 hf
      simp only [decide_eq_true_eq, not_not] at hall
      simp only [ih, List.mem_cons]
      constructor
      · intro htail e2 he2
        rcases he2 with he2 | he2
        · subst he2; exact hall
        · exact htail e2 he2
      · intro hboth e2 he2
        exact hboth e2 (Or.inr he2)

theorem checkLayer_eq_none (prev : List String) (ly : LayerSpec) :
    checkLayer prev ly = none ↔ ¬ layerBad prev ly := by
  by_cases he : ly.labels = []
  · simp [checkLayer, layerBad, he]
  · by_cases hnd : (layerLabels ly).Nodup
    · have hd : dupFind (layerLabels ly) = none := (dupFind_eq_none _).2 hnd
      cases hg : danglingFind prev ly.labels with
      | some lp =>
        have hnall : ¬ ∀ e ∈ ly.labels, ∀ p ∈ e.2, p ∈ prev := by
          rw [← danglingFind_eq_none, hg]; simp
        push_neg at hnall
        obtain ⟨e, hem, p, hpm, hpn⟩ := hnall
        have hbad : layerBad prev ly := Or.inr (Or.inr ⟨e, hem, p, hpm, hpn⟩)
        simp [checkLayer, he, hd, hg, hbad]
      | none =>
        have hall := (danglingFind_eq_none prev ly.labels).1 hg
        have hok : ¬ layerBad prev ly := by
          rintro (hc | hc | hc)
          · exact he hc
          · exact hc hnd
          · obtain ⟨e, hem, p, hpm, hpn⟩ := hc
            exact hpn (hall e hem p hpm)
        simp [checkLayer, he, hd, hg, hok]
    · cases hd2 : dupFind (layerLabels ly) with
      | none => exact absurd ((dupFind_eq_none _).1 hd2) hnd
      | some lab =>
        have hbad : layerBad prev ly := Or.inr (Or.inl hnd)
        simp [checkLayer, he, hd2, hbad]

theorem buildAux_error_iff (l : List LayerSpec) (prev : List String) :
    (∃ e, buildAux prev l = some e) ↔
      ∃ pr ∈ ((prev :: l.map layerLabels).zip l), layerBad pr.1 pr.2 := by
  induction l generalizing prev with
  | nil =>
    constructor
    · rintro ⟨e, he⟩
      simp [buildAux] at he
    · rintro ⟨pr, hpr, -⟩
      simp at hpr
  | cons ly rest ih =>
    rw [List.map_cons, List.zip_cons_cons]
    by_cases hb : layerBad prev ly
    · have hsome : ¬ checkLayer prev ly = none := fun hc =>
        ((checkLayer_eq_none prev ly).1 hc) hb
      cases hc : checkLayer prev ly with
      | none => exact absurd hc hsome
      | some e =>
        constructor
        · intro _
          exact ⟨(prev, ly), List.mem_cons_self _ _, hb⟩
        · intro _
          exact ⟨e, by simp [buildAux, hc]⟩
    · have hnone : checkLayer prev ly = none := (checkLayer_eq_none prev ly).2 hb
      have hstep : ∀ e, buildAux prev (ly :: rest) = some e ↔
          buildAux (layerLabels ly) rest = some e := by
        intro e; simp [buildAux, hnone]
      constructor
      · intro ⟨e, he⟩
        obtain ⟨pr, hpr, hbad⟩ := (ih (layerLabels ly)).1 ⟨e, (hstep e).1 he⟩
        exact ⟨pr, List.mem_cons_of_mem _ hpr, hbad⟩
      · intro ⟨pr, hpr, hbad⟩
        rcases List.mem_cons.1 hpr with hpr | hpr
        · subst hpr; exact absurd hbad hb
        · obtain ⟨e, he⟩ := (ih (layerLabels ly)).2 ⟨pr, hpr, hbad⟩
          exact ⟨e, (hstep e).2 he⟩

/-- C5: LayeredDAG construction fails — at construction time, no partial
DAG escaping — exactly when some layer is empty, some layer repeats a label
name, or some label declares a parent absent from the immediately preceding
layer; and on the spec section 8 scenario (layer "mid" declaring the absent
parent "Z") the raised error names both the layer "mid" and the parent
"Z". -/
theorem build_validation :
    (∀ t : Taxonomy, (∃ e, LayeredDAG.build t = .error e) ↔ specFailure t) ∧
    LayeredDAG.build badParentTax = .error (DAGError.danglingParent "mid" "C" "Z") := by
  constructor
  · intro t
    have hmain := buildAux_error_iff t []
    unfold specFailure
    rw [← hmain]
    unfold LayeredDAG.build
    cases hb : buildAux [] t with
    | none => simp [hb]
    | some e => simp [hb]
  · decide

/-! ### Harmonization layer: shapes, identity, totality -/

theorem squareOfB_iff {α : Type} (n : Nat) (m : List (List α)) :
    squareOfB n m = true ↔ (m.length = n ∧ ∀ row ∈ m, row.length = n) := by
  simp [squareOfB, List.all_eq_true]

theorem hgc_ok_of_shapes {α : Type} [CommRing α] (layer : HarmonizeGraphConvolution α)
    (raw : List α) (hlen : raw.length = layer.nodes)
    (hsq : ∀ s ∈ layer.supports, squareOfB layer.nodes s = true) :
    hgcForward layer raw =
      .ok ((List.range layer.nodes).map (fun i =>
        layer.activation (raw.getD i 0 +
          ((List.range layer.supports.length).map (fun k =>
            gateVal layer k *
              ((matVecL (layer.weights.getD k []) (matVecL (layer.supports.getD k []) raw)).getD
                i 0))).sum))) := by
  have hfind : layer.supports.find? (fun s => !squareOfB layer.nodes s) = none :=
    List.find?_eq_none.2 (fun s hs => by simp [hsq s hs])
  simp [hgcForward, hlen, hfind]

theorem dotL_eq_zero {α : Type} [CommRing α] (row v : List α) (h : ∀ a ∈ row, a = 0) :
    dotL row v = 0 := by
  induction row generalizing v with
  | nil => simp [dotL]
  | cons a row ih =>
    cases v with
    | nil => simp [dotL]
    | cons b v =>
      have ha : a = 0 := h a (List.mem_cons_self _ _)
      have hrest := ih v (fun x hx => h x (List.mem_cons_of_mem _ hx))
      unfold dotL at hrest ⊢
      rw [List.zipWith_cons_cons, List.sum_cons, ha, zero_mul, zero_add]
      exact hrest

theorem mem_of_getElem_opt {α : Type} {l : List α} {i : Nat} {a : α}
    (h : l[i]? = some a) : a ∈ l := by
  obtain ⟨hlt, he⟩ := List.getElem?_eq_some_iff.1 h
  exact he ▸ List.getElem_mem hlt

theorem matVec_getD_zero {α : Type} [CommRing α] (m : List (List α)) (v : List α) (i : Nat)
    (h : ∀ row ∈ m, ∀ a ∈ row, a = 0) :
    (matVecL m v).getD i 0 = 0 := by
  unfold matVecL
  rw [List.getD_eq_getElem?_getD, List.getElem?_map]
  cases hm : m[i]? with
  | none => simp
  | some row => simp [dotL_eq_zero row v (h row (mem_of_getElem_opt hm))]

theorem map_getD_range {α : Type} (l : List α) (z : α) :
    (List.range l.length).map (fun i => l.getD i z) = l := by
  apply List.ext_getElem
  · simp
  · intro i h1 h2
    simp only [List.getElem_map, List.getElem_range]
    rw [List.getD_eq_getElem?_getD, List.getElem?_eq_getElem h2]
    rfl

/-- C3: on a raw score vector whose length equals the layer's node count N
(and with the layer's supports square of size N, as the DAG-built supports
are), harmonization succeeds with an output of the same length N; and when
the gates are disabled and every learned projection weight is zero, with
the default identity activation, the output equals the raw input unchanged.
The per-example computation is the embedded definition
`activation (raw_i + Σ_k gate_k · (W_k · (S_k · raw))_i)`. -/
theorem harmonize_length_and_identity (layer : HarmonizeGraphConvolution ℚ) (raw : List ℚ)
    (hlen : raw.length = layer.nodes)
    (hsq : ∀ s ∈ layer.supports, squareOfB layer.nodes s = true) :
    (∃ out, hgcForward layer raw = .ok out ∧ out.length = layer.nodes) ∧
    (layer.learnSupport = false →
      (∀ wm ∈ layer.weights, ∀ row ∈ wm, ∀ a ∈ row, a = 0) →
      layer.activation = id →
      hgcForward layer raw = .ok raw) := by
  have hok := hgc_ok_of_shapes layer raw hlen hsq
  constructor
  · exact ⟨_, hok, by simp⟩
  · intro _ hw hact
    rw [hok]
    have hwk : ∀ k, ∀ row ∈ layer.weights.getD k [], ∀ a ∈ row, a = 0 := by
      intro k
      rw [List.getD_eq_getElem?_getD]
      cases hk : layer.weights[k]? with
      | none => simp
      | some wm =>
        simpa using hw wm (mem_of_getElem_opt hk)
    have hterm : ∀ i k,
        gateVal layer k *
          ((matVecL (layer.weights.getD k []) (matVecL (layer.supports.getD k []) raw)).getD
            i 0) = 0 := by
      intro i k
      rw [matVec_getD_zero _ _ _ (hwk k), mul_zero]
    have hmap : ∀ i, ((List.range layer.supports.length).map (fun k =>
        gateVal layer k *
          ((matVecL (layer.weights.getD k []) (matVecL (layer.supports.getD k []) raw)).getD
            i 0))).sum = 0 := by
      intro i
      refine List.sum_eq_zero (fun x hx => ?_)
      obtain ⟨k, -, hk⟩ := List.mem_map.1 hx
      rw [← hk]
      exact hterm i k
    have : (List.range layer.nodes).map (fun i =>
        layer.activation (raw.getD i 0 +
          ((List.range layer.supports.length).map (fun k =>
            gateVal layer k *
              ((matVecL (layer.weights.getD k []) (matVecL (layer.supports.getD k []) raw)).getD
                i 0))).sum)) = raw := by
      calc (List.range layer.nodes).map (fun i =>
            layer.activation (raw.getD i 0 +
              ((List.range layer.supports.length).map (fun k =>
                gateVal layer k *
                  ((matVecL (layer.weights.getD k [])
                    (matVecL (layer.supports.getD k []) raw)).getD i 0))).sum))
          = (List.range layer.nodes).map (fun i => raw.getD i 0) := by
            refine List.map_congr_left (fun i _ => ?_)
            rw [hmap i, add_zero, hact]
            rfl
        _ = raw := by rw [← hlen]; exact map_getD_range raw 0
    rw [this]

/-- Witness for C3 at the concrete two-node layer `egLayer` with the raw
vector [3, 4]. -/
theorem harmonize_length_and_identity_witness :
    (([3, 4] : List ℚ).length = egLayer.nodes) ∧
    (∀ s ∈ egLayer.supports, squareOfB egLayer.nodes s = true) ∧
    ((∃ out, hgcForward egLayer [3, 4] = .ok out ∧ out.length = egLayer.nodes) ∧
     (egLayer.learnSupport = false →
       (∀ wm ∈ egLayer.weights, ∀ row ∈ wm, ∀ a ∈ row, a = 0) →
       egLayer.activation = id →
       hgcForward egLayer [3, 4] = .ok [3, 4])) :=
  ⟨by decide, by decide, harmonize_length_and_identity egLayer [3, 4] (by decide) (by decide)⟩

/-- C6: harmonization fails with a shape-contract violation — an explicit
error, never a silent broadcast, truncation or padding — exactly when the
raw score vector length differs from the layer's node count N or some
supplied support matrix is not square of size N×N. -/
theorem harmonize_shape_contract (layer : HarmonizeGraphConvolution ℚ) (raw : List ℚ) :
    (∃ e, hgcForward layer raw = .error e) ↔
      (raw.length ≠ layer.nodes ∨
       ∃ s ∈ layer.supports,
         ¬ (s.length = layer.nodes ∧ ∀ row ∈ s, row.length = layer.nodes)) := by
  by_cases hr : raw.length = layer.nodes
  · cases hf : layer.supports.find? (fun s => !squareOfB layer.nodes s) with
    | some s =>
      have hmem := List.mem_of_find?_eq_some hf
      have hp := List.find?_some hf
      rw [Bool.not_eq_eq_eq_not, Bool.not_true] at hp
      have hsq : ¬ (s.length = layer.nodes ∧ ∀ row ∈ s, row.length = layer.nodes) := by
        rw [← squareOfB_iff, hp]
        simp
      constructor
      · intro _
        exact Or.inr ⟨s, hmem, hsq⟩
      · intro _
        exact ⟨.badSupport layer.nodes s.length, by simp [hgcForward, hr, hf]⟩
    | none =>
      have hall := List.find?_eq_none.1 hf
      constructor
      · rintro ⟨e, he⟩
        simp [hgcForward, hr, hf] at he
      · rintro (hc | ⟨s, hs, hc⟩)
        · exact absurd hr hc
        · refine absurd ((squareOfB_iff layer.nodes s).1 ?_) hc
          have := hall s hs
          simpa using this
  · constructor
    · intro _
      exact Or.inl hr
    · intro _
      exact ⟨.badInput layer.nodes raw.length, by simp [hgcForward, hr]⟩

/-! ### Numerical safety of the derivation and mixing pipeline -/

theorem adjacency_nonneg (t : Taxonomy) (i j : Fin (nNodes t)) :
    0 ≤ adjacency t i j := by
  unfold adjacency
  split <;> norm_num

theorem symAdj_nonneg (t : Taxonomy) (i j : Fin (nNodes t)) :
    0 ≤ symAdj t i j :=
  add_nonneg (adjacency_nonneg t i j) (adjacency_nonneg t j i)

theorem symDeg_nonneg (t : Taxonomy) (i : Fin (nNodes t)) :
    0 ≤ symDeg t i :=
  Finset.sum_nonneg (fun j _ => symAdj_nonneg t i j)

theorem invSqrtChecked_isSome (x : ℝ) (hx : 0 ≤ x) : (invSqrtChecked x).isSome = true := by
  unfold invSqrtChecked
  by_cases h0 : x = 0
  · simp [h0]
  · have hpos : 0 < x := lt_of_le_of_ne hx (Ne.symm h0)
    have hno : ¬ (x < 0 ∨ Real.sqrt x = 0) := by
      push_neg
      exact ⟨hx, (Real.sqrt_pos.2 hpos).ne'⟩
    simp [h0, hno]

theorem squareOfB_matrixToLists {α : Type} {n : Nat} (M : Matrix (Fin n) (Fin n) α) :
    squareOfB n (matrixToLists M) = true := by
  rw [squareOfB_iff]
  constructor
  · simp [matrixToLists]
  · intro row hrow
    obtain ⟨i, -, hrow⟩ := List.mem_map.1 hrow
    rw [← hrow]
    simp

/-- C8: for every valid taxonomy and every raw score batch row of the
correct length N — including the all-ones and all-zero vectors — the whole
pipeline is free of undefined arithmetic: every entry of the three
precomputed supports is defined under division-checked semantics (the
zero-row convention guards every division and inverse square root), and the
mixing step, which performs no division at all, succeeds and returns a
vector of length N. -/
theorem harmonize_numerically_safe (d : LayeredDAG)
    (h : LayeredDAG.build d.layers = .ok d)
    (weights : List (List (List ℝ))) (gates : List ℝ) (raw : List ℝ)
    (hlen : raw.length = nNodes d.layers) :
    (∀ i j : Fin (nNodes d.layers),
       (forwardOperatorChecked d.layers i j).isSome = true ∧
       (backwardOperatorChecked d.layers i j).isSome = true ∧
       (symmetricLaplacianChecked d.layers i j).isSome = true) ∧
    (∃ out, hgcForward (hammerHarmonizeLayer d weights gates) raw = .ok out ∧
       out.length = nNodes d.layers) := by
  clear h
  constructor
  · intro i j
    refine ⟨?_, ?_, ?_⟩
    · unfold forwardOperatorChecked qdivChecked
      by_cases h0 : outDeg d.layers i = 0 <;> simp [h0]
    · unfold backwardOperatorChecked qdivChecked
      by_cases h0 : inDeg d.layers i = 0 <;> simp [h0]
    · have hi := invSqrtChecked_isSome ((symDeg d.layers i : ℚ) : ℝ)
        (by exact_mod_cast symDeg_nonneg d.layers i)
      have hj := invSqrtChecked_isSome ((symDeg d.layers j : ℚ) : ℝ)
        (by exact_mod_cast symDeg_nonneg d.layers j)
      obtain ⟨a, ha⟩ := Option.isSome_iff_exists.1 hi
      obtain ⟨b, hb⟩ := Option.isSome_iff_exists.1 hj
      unfold symmetricLaplacianChecked
      rw [ha, hb]
      rfl
  · have hsup : ∀ s ∈ (hammerHarmonizeLayer d weights gates).supports,
        squareOfB (hammerHarmonizeLayer d weights gates).nodes s = true := by
      intro s hs
      have hcases : s = matrixToLists (LayeredDAG.symmetricLaplacianM d) ∨
          s = matrixToLists (d.laplacian.map (fun q => (q : ℝ))) ∨
          s = matrixToLists (d.transposedLaplacian.map (fun q => (q : ℝ))) := by
        simpa [hammerHarmonizeLayer] using hs
      rcases hcases with hcs | hcs | hcs <;> subst hcs <;>
        exact squareOfB_matrixToLists _
    have hok := hgc_ok_of_shapes (hammerHarmonizeLayer d weights gates) raw hlen hsup
    exact ⟨_, hok, by simp [hammerHarmonizeLayer]⟩

/-- Witness for C8 at the example taxonomy with the all-ones raw vector of
length 6. -/
theorem harmonize_numerically_safe_witness :
    (LayeredDAG.build egDag.layers = .ok egDag) ∧
    ((List.replicate 6 (1 : ℝ)).length = nNodes egDag.layers) ∧
    ((∀ i j : Fin (nNodes egDag.layers),
        (forwardOperatorChecked egDag.layers i j).isSome = true ∧
        (backwardOperatorChecked egDag.layers i j).isSome = true ∧
        (symmetricLaplacianChecked egDag.layers i j).isSome = true) ∧
     (∃ out, hgcForward (hammerHarmonizeLayer egDag [] []) (List.replicate 6 (1 : ℝ)) =
          .ok out ∧ out.length = nNodes egDag.layers)) :=
  ⟨by decide, by decide,
    harmonize_numerically_safe egDag (by decide) [] [] (List.replicate 6 1) (by decide)⟩

/-! ### The symmetric operator: normalized-Laplacian form, symmetry,
positive semi-definiteness -/

theorem symAdj_comm (t : Taxonomy) (i j : Fin (nNodes t)) :
    symAdj t i j = symAdj t j i :=
  add_comm _ _

theorem invSqrtZ_sq_mul_le_one (x : ℝ) (hx : 0 ≤ x) :
    invSqrtZ x * invSqrtZ x * x ≤ 1 := by
  unfold invSqrtZ
  by_cases h0 : x = 0
  · simp [h0]
  · simp only [h0, if_false]
    have hpos : 0 < x := lt_of_le_of_ne hx (Ne.symm h0)
    have hmm : Real.sqrt x * Real.sqrt x = x := Real.mul_self_sqrt hx
    have hrw : 1 / Real.sqrt x * (1 / Real.sqrt x) * x = x / (Real.sqrt x * Real.sqrt x) := by
      ring
    rw [hrw, hmm, div_self h0]

/-- Arithmetic core of positive semi-definiteness: for a symmetric
entrywise-nonnegative matrix with row sums `deg`, the normalized quadratic
cross term is bounded by the plain sum of squares. -/
theorem quadform_aux {n : ℕ} (SR : Matrix (Fin n) (Fin n) ℝ) (deg : Fin n → ℝ)
    (x : Fin n → ℝ) (hnn : ∀ i j, 0 ≤ SR i j) (hsymm : ∀ i j, SR i j = SR j i)
    (hdeg : ∀ i, deg i = ∑ j, SR i j) :
    (∑ i, ∑ j, SR i j * ((invSqrtZ (deg i) * x i) * (invSqrtZ (deg j) * x j)))
      ≤ ∑ i, x i ^ 2 := by
  have hdegnn : ∀ i, 0 ≤ deg i := fun i => by
    rw [hdeg i]
    exact Finset.sum_nonneg (fun j _ => hnn i j)
  have step2 : (∑ i, ∑ j, SR i j * ((invSqrtZ (deg i) * x i) * (invSqrtZ (deg j) * x j)))
      ≤ ∑ i, ∑ j, SR i j *
          (((invSqrtZ (deg i) * x i) ^ 2 + (invSqrtZ (deg j) * x j) ^ 2) / 2) := by
    refine Finset.sum_le_sum (fun i _ => Finset.sum_le_sum (fun j _ => ?_))
    refine mul_le_mul_of_nonneg_left ?_ (hnn i j)
    nlinarith [sq_nonneg (invSqrtZ (deg i) * x i - invSqrtZ (deg j) * x j)]
  have hA : (∑ i, ∑ j, SR i j * (invSqrtZ (deg i) * x i) ^ 2)
      = ∑ i, (invSqrtZ (deg i) * x i) ^ 2 * deg i := by
    refine Finset.sum_congr rfl (fun i _ => ?_)
    calc ∑ j, SR i j * (invSqrtZ (deg i) * x i) ^ 2
        = (∑ j, SR i j) * (invSqrtZ (deg i) * x i) ^ 2 := (Finset.sum_mul _ _ _).symm
      _ = (invSqrtZ (deg i) * x i) ^ 2 * deg i := by rw [← hdeg i]; ring
  have hB : (∑ i, ∑ j, SR i j * (invSqrtZ (deg j) * x j) ^ 2)
      = ∑ j, (invSqrtZ (deg j) * x j) ^ 2 * deg j := by
    rw [Finset.sum_comm]
    refine Finset.sum_congr rfl (fun j _ => ?_)
    calc ∑ i, SR i j * (invSqrtZ (deg j) * x j) ^ 2
        = (∑ i, SR i j) * (invSqrtZ (deg j) * x j) ^ 2 := (Finset.sum_mul _ _ _).symm
      _ = (∑ i, SR j i) * (invSqrtZ (deg j) * x j) ^ 2 := by
          rw [Finset.sum_congr rfl (fun i _ => by rw [hsymm i j])]
      _ = (invSqrtZ (deg j) * x j) ^ 2 * deg j := by rw [← hdeg j]; ring
  have step3 : (∑ i, ∑ j, SR i j *
        (((invSqrtZ (deg i) * x i) ^ 2 + (invSqrtZ (deg j) * x j) ^ 2) / 2))
      = ∑ i, (invSqrtZ (deg i) * x i) ^ 2 * deg i := by
    calc ∑ i, ∑ j, SR i j *
          (((invSqrtZ (deg i) * x i) ^ 2 + (invSqrtZ (deg j) * x j) ^ 2) / 2)
        = ∑ i, ∑ j, (SR i j * (invSqrtZ (deg i) * x i) ^ 2
            + SR i j * (invSqrtZ (deg j) * x j) ^ 2) / 2 := by
          refine Finset.sum_congr rfl (fun i _ => Finset.sum_congr rfl (fun j _ => ?_))
          ring
      _ = ((∑ i, ∑ j, SR i j * (invSqrtZ (deg i) * x i) ^ 2)
            + ∑ i, ∑ j, SR i j * (invSqrtZ (deg j) * x j) ^ 2) / 2 := by
          have hinner : ∀ i, (∑ j, (SR i j * (invSqrtZ (deg i) * x i) ^ 2
              + SR i j * (invSqrtZ (deg j) * x j) ^ 2) / 2)
              = ((∑ j, SR i j * (invSqrtZ (deg i) * x i) ^ 2)
                + ∑ j, SR i j * (invSqrtZ (deg j) * x j) ^ 2) / 2 := fun i => by
            rw [← Finset.sum_div, Finset.sum_add_distrib]
          rw [Finset.sum_congr rfl (fun i _ => hinner i), ← Finset.sum_div,
            Finset.sum_add_distrib]
      _ = (((∑ i, (invSqrtZ (deg i) * x i) ^ 2 * deg i))
            + ∑ j, (invSqrtZ (deg j) * x j) ^ 2 * deg j) / 2 := by rw [hA, hB]
      _ = ∑ i, (invSqrtZ (deg i) * x i) ^ 2 * deg i := add_self_div_two _
  have step4 : (∑ i, (invSqrtZ (deg i) * x i) ^ 2 * deg i) ≤ ∑ i, x i ^ 2 := by
    refine Finset.sum_le_sum (fun i _ => ?_)
    have hre : (invSqrtZ (deg i) * x i) ^ 2 * deg i
        = (invSqrtZ (deg i) * invSqrtZ (deg i) * deg i) * x i ^ 2 := by ring
    rw [hre]
    calc (invSqrtZ (deg i) * invSqrtZ (deg i) * deg i) * x i ^ 2
        ≤ 1 * x i ^ 2 :=
          mul_le_mul_of_nonneg_right (invSqrtZ_sq_mul_le_one (deg i) (hdegnn i))
            (sq_nonneg _)
      _ = x i ^ 2 := one_mul _
  calc (∑ i, ∑ j, SR i j * ((invSqrtZ (deg i) * x i) * (invSqrtZ (deg j) * x j)))
      ≤ ∑ i, ∑ j, SR i j *
          (((invSqrtZ (deg i) * x i) ^ 2 + (invSqrtZ (deg j) * x j) ^ 2) / 2) := step2
    _ = ∑ i, (invSqrtZ (deg i) * x i) ^ 2 * deg i := step3
    _ ≤ ∑ i, x i ^ 2 := step4

theorem symLap_quadform (t : Taxonomy) (x : Fin (nNodes t) → ℝ) :
    0 ≤ Matrix.dotProduct x (Matrix.mulVec (symmetricLaplacian t) x) := by
  have hexpand : Matrix.dotProduct x (Matrix.mulVec (symmetricLaplacian t) x)
      = (∑ i, x i ^ 2) - ∑ i, ∑ j, ((symAdj t i j : ℚ) : ℝ) *
          ((invSqrtZ ((symDeg t i : ℚ) : ℝ) * x i) *
            (invSqrtZ ((symDeg t j : ℚ) : ℝ) * x j)) := by
    simp only [Matrix.dotProduct, Matrix.mulVec, symmetricLaplacian]
    rw [← Finset.sum_sub_distrib]
    refine Finset.sum_congr rfl (fun i _ => ?_)
    rw [Finset.mul_sum]
    have hterm : ∀ j, x i * (((if i = j then (1 : ℝ) else 0) -
          invSqrtZ ((symDeg t i : ℚ) : ℝ) * ((symAdj t i j : ℚ) : ℝ) *
            invSqrtZ ((symDeg t j : ℚ) : ℝ)) * x j)
        = (if i = j then x i * x j else 0) - ((symAdj t i j : ℚ) : ℝ) *
            ((invSqrtZ ((symDeg t i : ℚ) : ℝ) * x i) *
              (invSqrtZ ((symDeg t j : ℚ) : ℝ) * x j)) := by
      intro j
      by_cases hij : i = j <;> simp [hij] <;> ring
    rw [Finset.sum_congr rfl (fun j _ => hterm j), Finset.sum_sub_distrib]
    congr 1
    rw [Finset.sum_ite_eq]
    simp
    ring
  rw [hexpand]
  refine sub_nonneg.2 (quadform_aux (fun i j => ((symAdj t i j : ℚ) : ℝ))
    (fun i => ((symDeg t i : ℚ) : ℝ)) x ?_ ?_ ?_)
  · intro i j
    show (0 : ℝ) ≤ ((symAdj t i j : ℚ) : ℝ)
    exact_mod_cast symAdj_nonneg t i j
  · intro i j
    show ((symAdj t i j : ℚ) : ℝ) = ((symAdj t j i : ℚ) : ℝ)
    exact_mod_cast symAdj_comm t i j
  · intro i
    unfold symDeg
    push_cast
    rfl

/-- C2: for every valid taxonomy, the symmetric operator
(`symmetric_laplacian()`) equals `I − D_sym^(−1/2)·(A + Aᵗ)·D_sym^(−1/2)`
with every zero-degree inverse square root taken as zero, it is exactly
symmetric (equal to its transpose), and it is positive semi-definite (its
quadratic form is nonnegative on every real vector). -/
theorem symmetric_laplacian_props (d : LayeredDAG)
    (h : LayeredDAG.build d.layers = .ok d) :
    d.symmetricLaplacianM
        = 1 - Matrix.diagonal (fun i => invSqrtZ ((symDeg d.layers i : ℚ) : ℝ)) *
            ((symAdj d.layers).map (fun q => ((q : ℚ) : ℝ))) *
            Matrix.diagonal (fun i => invSqrtZ ((symDeg d.layers i : ℚ) : ℝ)) ∧
    Matrix.transpose d.symmetricLaplacianM = d.symmetricLaplacianM ∧
    ∀ x : Fin (nNodes d.layers) → ℝ,
      0 ≤ Matrix.dotProduct x (Matrix.mulVec d.symmetricLaplacianM x) := by
  clear h
  refine ⟨?_, ?_, fun x => symLap_quadform d.layers x⟩
  · ext i j
    simp [LayeredDAG.symmetricLaplacianM, symmetricLaplacian, Matrix.sub_apply,
      Matrix.one_apply, Matrix.mul_diagonal, Matrix.diagonal_mul, Matrix.map_apply]
  · ext i j
    show symmetricLaplacian d.layers j i = symmetricLaplacian d.layers i j
    unfold symmetricLaplacian
    rw [symAdj_comm d.layers j i]
    by_cases hij : i = j
    · subst hij
      ring
    · have hji : ¬ j = i := fun hc => hij hc.symm
      simp only [hij, hji, if_false]
      ring

/-- Witness for C2 at the spec section 8 example taxonomy. -/
theorem symmetric_laplacian_props_witness :
    LayeredDAG.build egDag.layers = .ok egDag ∧
    (Matrix.transpose egDag.symmetricLaplacianM = egDag.symmetricLaplacianM ∧
     ∀ x : Fin (nNodes egDag.layers) → ℝ,
       0 ≤ Matrix.dotProduct x (Matrix.mulVec egDag.symmetricLaplacianM x)) :=
  ⟨by decide, (symmetric_laplacian_props egDag (by decide)).2⟩

/-! ### Feature-settings attribute machinery -/

theorem includeAttrSuffix_append (f : String) :
    includeAttrSuffix ("include_" ++ f) = some f := by
  have h : ("include_" ++ f).toList = "include_".toList ++ f.toList := by
    simp [String.toList]
  have hl : ("include_".toList).length = 8 := by decide
  unfold includeAttrSuffix
  rw [h, ← hl, List.take_left, List.drop_left, if_pos rfl]
  rfl

/-- C10: every attribute access `include_<f>` with `<f>` not among the
registered features' pythonic names raises AttributeError instead of
creating a new toggle; in particular `FeatureSettings.standard()` raises
AttributeError, because it invokes `include_molecular_descriptors` and
"molecular_descriptors" is not a registry name (while the preceding
`include_layered` succeeds). -/
theorem feature_settings_attribute_error :
    (∀ (fs : FeatureSettings) (f : String),
       fs.featuresIncluded.map Prod.fst = registryNames → f ∉ registryNames →
       fsGetattr fs ("include_" ++ f) = .error (attrErrMsg ("include_" ++ f))) ∧
    FeatureSettings.standard = .error (attrErrMsg "include_molecular_descriptors") := by
  constructor
  · intro fs f hkeys hf
    unfold fsGetattr
    rw [includeAttrSuffix_append, hkeys]
    simp [hf]
  · decide

/-- Witness for C10: the name "molecular_descriptors" is not registered and
the corresponding attribute access on a fresh settings object errors. -/
theorem feature_settings_attribute_error_witness :
    (FeatureSettings.init.featuresIncluded.map Prod.fst = registryNames) ∧
    ("molecular_descriptors" ∉ registryNames) ∧
    fsGetattr FeatureSettings.init ("include_" ++ "molecular_descriptors") =
      .error (attrErrMsg ("include_" ++ "molecular_descriptors")) :=
  ⟨by decide, by decide,
    feature_settings_attribute_error.1 FeatureSettings.init "molecular_descriptors"
      (by decide) (by decide)⟩

end Hammer
